import Mathlib

/-!
Shallow embedding of the spark-esri micropath / virtual-gate-crossing pipeline
(`src/micro_path.ipynb`: the micropath-construction notebook and the
gate-crossing notebook; both share the same SparkSQL segmentation queries).

Coordinates (web-mercator meters, `double` in the source) are embedded as
exact rationals `ℚ`; epoch timestamps (`unix_timestamp`, integer seconds)
as `ℤ`.  SQL views become list transformers; the broadcast gate set becomes
an explicit list parameter.
-/

namespace SparkEsri

/-- A planar point/vector `(x, y)`, as produced by `SHAPE@X`/`SHAPE@Y`. -/
abbrev Pt := ℚ × ℚ

/-- 2-D cross product `u.x * v.y - u.y * v.x` of two vectors. -/
def crossP (u v : Pt) : ℚ := u.1 * v.2 - u.2 * v.1

/-- 2-D dot product of two vectors. -/
def dotP (u v : Pt) : ℚ := u.1 * v.1 + u.2 * v.2

/-- The point `p` lies on the closed segment from `a` to `b`
(convex-combination parametrisation). -/
def OnSeg (p a b : Pt) : Prop :=
  ∃ s : ℚ, 0 ≤ s ∧ s ≤ 1 ∧
    p.1 = a.1 + s * (b.1 - a.1) ∧ p.2 = a.2 + s * (b.2 - a.2)

/-- The closed segments `[a, b]` and `[c, d]` share at least one point:
the set-level meaning of `not geom.intersection(path).is_empty` for two
2-point `LineString`s. -/
def SegMeets (a b c d : Pt) : Prop :=
  ∃ p : Pt, OnSeg p a b ∧ OnSeg p c d

/-- Parametric form of `SegMeets` with `u = b - a`, `v = d - c`, `w = c - a`:
there are parameters `s, t ∈ [0, 1]` with `s • u - t • v = w`. -/
def ParamMeets (u v w : Pt) : Prop :=
  ∃ s t : ℚ, 0 ≤ s ∧ s ≤ 1 ∧ 0 ≤ t ∧ t ≤ 1 ∧
    s * u.1 - t * v.1 = w.1 ∧ s * u.2 - t * v.2 = w.2

theorem segMeets_iff_paramMeets (a b c d : Pt) :
    SegMeets a b c d ↔
      ParamMeets (b.1 - a.1, b.2 - a.2) (d.1 - c.1, d.2 - c.2) (c.1 - a.1, c.2 - a.2) := by
  constructor
  · rintro ⟨p, ⟨s, hs0, hs1, hpx, hpy⟩, ⟨t, ht0, ht1, hqx, hqy⟩⟩
    exact ⟨s, t, hs0, hs1, ht0, ht1, by simp only; linarith, by simp only; linarith⟩
  · rintro ⟨s, t, hs0, hs1, ht0, ht1, hx, hy⟩
    simp only at hx hy
    exact ⟨(a.1 + s * (b.1 - a.1), a.2 + s * (b.2 - a.2)),
      ⟨s, hs0, hs1, rfl, rfl⟩, ⟨t, ht0, ht1, by simp only; linarith, by simp only; linarith⟩⟩

/-- Exact decision of `ParamMeets`: the segment-intersection test GEOS
performs inside `gate_geom.intersection(path)` followed by `is_empty`,
written over `ℚ` (transversal case by Cramer's rule, parallel and
degenerate cases by collinearity tests and 1-D interval overlap). -/
def paramHit (u v w : Pt) : Bool :=
  if crossP u v ≠ 0 then
    decide (0 ≤ crossP w v / crossP u v ∧ crossP w v / crossP u v ≤ 1 ∧
            0 ≤ crossP w u / crossP u v ∧ crossP w u / crossP u v ≤ 1)
  else if u ≠ ((0 : ℚ), (0 : ℚ)) then
    decide (crossP u w = 0 ∧
      min (dotP w u / dotP u u) (dotP w u / dotP u u + dotP v u / dotP u u) ≤ 1 ∧
      0 ≤ max (dotP w u / dotP u u) (dotP w u / dotP u u + dotP v u / dotP u u))
  else if v ≠ ((0 : ℚ), (0 : ℚ)) then
    decide (crossP v w = 0 ∧ 0 ≤ -dotP w v / dotP v v ∧ -dotP w v / dotP v v ≤ 1)
  else
    decide (w = ((0 : ℚ), (0 : ℚ)))

/-- Emptiness test of the intersection of segments `[a, b]` and `[c, d]`
(negated): embeds `not gate_geom.intersection(path).is_empty`. -/
def segIntersects (a b c d : Pt) : Bool :=
  paramHit (b.1 - a.1, b.2 - a.2) (d.1 - c.1, d.2 - c.2) (c.1 - a.1, c.2 - a.2)

section ParamHitCorrect

lemma dotP_self_pos {u : Pt} (hu : u ≠ ((0 : ℚ), (0 : ℚ))) : 0 < dotP u u := by
  rcases u with ⟨ux, uy⟩
  have h : ux ≠ 0 ∨ uy ≠ 0 := by
    by_contra hc
    push_neg at hc
    exact hu (by simp [hc.1, hc.2])
  rcases h with h | h
  · have := mul_self_pos.mpr h
    have := mul_self_nonneg uy
    simp only [dotP]
    nlinarith
  · have := mul_self_pos.mpr h
    have := mul_self_nonneg ux
    simp only [dotP]
    nlinarith

/-- Collinearity decomposition: if `u ≠ 0` and `crossP u w = 0` then
`w` is the scalar multiple `(dotP w u / dotP u u) • u`. -/
lemma vec_decomp {u w : Pt} (hu : u ≠ ((0 : ℚ), (0 : ℚ))) (h : crossP u w = 0) :
    w.1 = dotP w u / dotP u u * u.1 ∧ w.2 = dotP w u / dotP u u * u.2 := by
  have hd : dotP u u ≠ 0 := ne_of_gt (dotP_self_pos hu)
  simp only [crossP] at h
  simp only [dotP] at hd ⊢
  constructor
  · rw [div_mul_eq_mul_div, eq_div_iff hd]
    linear_combination (-u.2) * h
  · rw [div_mul_eq_mul_div, eq_div_iff hd]
    linear_combination u.1 * h

/-- One-dimensional step: the affine image `{μ + t * r | t ∈ [0, 1]}` meets
`[0, 1]` as soon as the interval with ends `μ` and `μ + r` does. -/
lemma exists_param_in_unit {μ r : ℚ} (h1 : min μ (μ + r) ≤ 1) (h2 : 0 ≤ max μ (μ + r)) :
    ∃ t : ℚ, 0 ≤ t ∧ t ≤ 1 ∧ 0 ≤ μ + t * r ∧ μ + t * r ≤ 1 := by
  rcases eq_or_ne r 0 with hr | hr
  · subst hr
    refine ⟨0, le_refl 0, zero_le_one, ?_, ?_⟩
    · simpa using h2
    · simpa using h1
  · set q : ℚ := max (min μ (μ + r)) 0 with hq
    have hminmax : min μ (μ + r) ≤ max μ (μ + r) := min_le_max
    have hq0 : 0 ≤ q := le_max_right _ _
    have hq1 : q ≤ 1 := max_le h1 zero_le_one
    have hqlo : min μ (μ + r) ≤ q := le_max_left _ _
    have hqhi : q ≤ max μ (μ + r) := max_le hminmax h2
    refine ⟨(q - μ) / r, ?_, ?_, ?_, ?_⟩
    · rcases lt_or_gt_of_ne hr with hneg | hpos
      · have : q ≤ μ := by
          have := max_eq_left (le_of_lt (by linarith : μ + r < μ))
          rw [this] at hqhi
          exact hqhi
        exact div_nonneg_iff.mpr (Or.inr ⟨by linarith, le_of_lt hneg⟩)
      · have : μ ≤ q := by
          have := min_eq_left (le_of_lt (by linarith : μ < μ + r))
          rw [this] at hqlo
          exact hqlo
        exact div_nonneg (by linarith) (le_of_lt hpos)
    · rcases lt_or_gt_of_ne hr with hneg | hpos
      · rw [div_le_one_of_neg hneg]
        have : μ + r ≤ q := by
          have := min_eq_right (le_of_lt (by linarith : μ + r < μ))
          rw [this] at hqlo
          exact hqlo
        linarith
      · rw [div_le_one hpos]
        have : q ≤ μ + r := by
          have := max_eq_right (le_of_lt (by linarith : μ < μ + r))
          rw [this] at hqhi
          exact hqhi
        linarith
    · have : μ + (q - μ) / r * r = q := by field_simp
      rw [this]; exact hq0
    · have : μ + (q - μ) / r * r = q := by field_simp
      rw [this]; exact hq1

/-- Converse of `exists_param_in_unit`. -/
lemma param_in_unit_bounds {μ r t : ℚ} (ht0 : 0 ≤ t) (ht1 : t ≤ 1)
    (h0 : 0 ≤ μ + t * r) (h1 : μ + t * r ≤ 1) :
    min μ (μ + r) ≤ 1 ∧ 0 ≤ max μ (μ + r) := by
  rcases le_total 0 r with hr | hr
  · constructor
    · have : min μ (μ + r) ≤ μ := min_le_left _ _
      nlinarith
    · have : μ + r ≤ max μ (μ + r) := le_max_right _ _
      nlinarith
  · constructor
    · have : min μ (μ + r) ≤ μ + r := min_le_right _ _
      nlinarith
    · have : μ ≤ max μ (μ + r) := le_max_left _ _
      nlinarith

/-- The transversal branch of `paramHit` is exact. -/
lemma paramMeets_transversal {u v w : Pt} (hD : crossP u v ≠ 0) :
    ParamMeets u v w ↔
      (0 ≤ crossP w v / crossP u v ∧ crossP w v / crossP u v ≤ 1 ∧
       0 ≤ crossP w u / crossP u v ∧ crossP w u / crossP u v ≤ 1) := by
  constructor
  · rintro ⟨s, t, hs0, hs1, ht0, ht1, hx, hy⟩
    have hs : s * crossP u v = crossP w v := by
      simp only [crossP]
      linear_combination v.2 * hx - v.1 * hy
    have ht : t * crossP u v = crossP w u := by
      simp only [crossP]
      linear_combination u.2 * hx - u.1 * hy
    have hseq : crossP w v / crossP u v = s := by
      rw [eq_comm, eq_div_iff hD]; exact hs
    have hteq : crossP w u / crossP u v = t := by
      rw [eq_comm, eq_div_iff hD]; exact ht
    rw [hseq, hteq]
    exact ⟨hs0, hs1, ht0, ht1⟩
  · rintro ⟨h1, h2, h3, h4⟩
    refine ⟨crossP w v / crossP u v, crossP w u / crossP u v, h1, h2, h3, h4, ?_, ?_⟩
    · simp only [crossP] at hD ⊢
      field_simp
      ring
    · simp only [crossP] at hD ⊢
      field_simp
      ring

/-- The parallel branch of `paramHit` is exact. -/
lemma paramMeets_parallel {u v w : Pt} (hD : crossP u v = 0)
    (hu : u ≠ ((0 : ℚ), (0 : ℚ))) :
    ParamMeets u v w ↔
      (crossP u w = 0 ∧
       min (dotP w u / dotP u u) (dotP w u / dotP u u + dotP v u / dotP u u) ≤ 1 ∧
       0 ≤ max (dotP w u / dotP u u) (dotP w u / dotP u u + dotP v u / dotP u u)) := by
  have hdd : (0 : ℚ) < dotP u u := dotP_self_pos hu
  have hdd' : dotP u u ≠ 0 := ne_of_gt hdd
  constructor
  · rintro ⟨s, t, hs0, hs1, ht0, ht1, hx, hy⟩
    have hcol : crossP u w = 0 := by
      simp only [crossP] at hD ⊢
      linear_combination u.2 * hx - u.1 * hy - t * hD
    have hdot : s * dotP u u - t * dotP v u = dotP w u := by
      simp only [dotP]
      linear_combination u.1 * hx + u.2 * hy
    have hseq : s = dotP w u / dotP u u + t * (dotP v u / dotP u u) := by
      field_simp
      linarith
    refine ⟨hcol, ?_⟩
    have := param_in_unit_bounds (μ := dotP w u / dotP u u) (r := dotP v u / dotP u u)
      ht0 ht1 (by rw [← hseq]; exact hs0) (by rw [← hseq]; exact hs1)
    exact this
  · rintro ⟨hcol, hmin, hmax⟩
    have hucw : crossP u w = 0 := hcol
    have hw := vec_decomp hu hucw
    have hv := vec_decomp hu hD
    obtain ⟨t, ht0, ht1, h0, h1⟩ := exists_param_in_unit hmin hmax
    refine ⟨dotP w u / dotP u u + t * (dotP v u / dotP u u), t, h0, h1, ht0, ht1, ?_, ?_⟩
    · rw [hv.1, hw.1]; ring
    · rw [hv.2, hw.2]; ring

/-- The point-against-segment branch of `paramHit` is exact. -/
lemma paramMeets_point_seg {v w : Pt} (hv : v ≠ ((0 : ℚ), (0 : ℚ))) :
    ParamMeets ((0 : ℚ), (0 : ℚ)) v w ↔
      (crossP v w = 0 ∧ 0 ≤ -dotP w v / dotP v v ∧ -dotP w v / dotP v v ≤ 1) := by
  have hdd : (0 : ℚ) < dotP v v := dotP_self_pos hv
  have hdd' : dotP v v ≠ 0 := ne_of_gt hdd
  constructor
  · rintro ⟨s, t, hs0, hs1, ht0, ht1, hx, hy⟩
    simp only at hx hy
    have hcol : crossP v w = 0 := by
      simp only [crossP]
      linear_combination v.2 * hx - v.1 * hy
    have hdot : t * dotP v v = -dotP w v := by
      simp only [dotP]
      linear_combination (-v.1) * hx - v.2 * hy
    have hteq : -dotP w v / dotP v v = t := by
      rw [eq_comm, eq_div_iff hdd']; exact hdot
    rw [hteq]
    exact ⟨hcol, ht0, ht1⟩
  · rintro ⟨hcol, h0, h1⟩
    have hw := vec_decomp hv hcol
    refine ⟨0, -dotP w v / dotP v v, le_refl 0, zero_le_one, h0, h1, ?_, ?_⟩
    · simp only
      rw [hw.1]
      field_simp
    · simp only
      rw [hw.2]
      field_simp

/-- Correctness of the segment-intersection decision in parametric form. -/
theorem paramHit_iff (u v w : Pt) : paramHit u v w = true ↔ ParamMeets u v w := by
  unfold paramHit
  split_ifs with hD hu hv
  · rw [decide_eq_true_eq, paramMeets_transversal hD]
  · push_neg at hD
    rw [decide_eq_true_eq, paramMeets_parallel hD hu]
  · push_neg at hD hu
    subst hu
    rw [decide_eq_true_eq, paramMeets_point_seg hv]
  · push_neg at hD hu hv
    subst hu
    subst hv
    rw [decide_eq_true_eq]
    constructor
    · rintro rfl
      exact ⟨0, 0, le_refl 0, zero_le_one, le_refl 0, zero_le_one, by simp, by simp⟩
    · rintro ⟨s, t, _, _, _, _, hx, hy⟩
      simp only at hx hy
      have : w.1 = 0 := by linarith [hx]
      have : w.2 = 0 := by linarith [hy]
      rcases w with ⟨w1, w2⟩
      simp_all

/-- Correctness of `segIntersects` against the set-level meaning. -/
theorem segIntersects_iff_segMeets (a b c d : Pt) :
    segIntersects a b c d = true ↔ SegMeets a b c d := by
  rw [segIntersects, paramHit_iff, segMeets_iff_paramMeets]

end ParamHitCorrect

/-- Value of `point.x`/`point.y` whenever the (nonempty) intersection of
segments `[a, b]` and `[c, d]` is a single point — the unique crossing
point in the transversal case, the touch point in the parallel cases.  On a
positive-length collinear overlap the source instead raises
(`point.x` on a `LineString`, see `segOverlaps` and `funcE` below); there
this function returns the first overlap point along `[a, b]`, a junk value
used only by the totalised detector `func`, whose claims never reach that
case. -/
def interPoint (a b c d : Pt) : Pt :=
  let u : Pt := (b.1 - a.1, b.2 - a.2)
  let v : Pt := (d.1 - c.1, d.2 - c.2)
  let w : Pt := (c.1 - a.1, c.2 - a.2)
  if crossP u v ≠ 0 then
    (a.1 + crossP w v / crossP u v * u.1, a.2 + crossP w v / crossP u v * u.2)
  else if u ≠ ((0 : ℚ), (0 : ℚ)) then
    (a.1 + max 0 (min (dotP w u / dotP u u) (dotP w u / dotP u u + dotP v u / dotP u u)) * u.1,
     a.2 + max 0 (min (dotP w u / dotP u u) (dotP w u / dotP u u + dotP v u / dotP u u)) * u.2)
  else a

/-- A gate feature of the `Gates` feature class: a `GateID` attribute and a
2-point `LineString` shape (read in WKB; `head = coords[0]`,
`last = coords[-1]`). -/
structure GateRec where
  gid : ℤ
  head : Pt
  last : Pt
deriving DecidableEq

/-- A row of `df1` (the noise-filtered micropath projection
`select x1,y1,x2,y2 from v4 where ...`) as consumed by `func`. -/
structure SPath where
  x1 : ℚ
  y1 : ℚ
  x2 : ℚ
  y2 : ℚ
deriving DecidableEq

/-- A row yielded by `func` and collected into `df2` with columns
`gate_x, gate_y, gate_id, travel_dir`. -/
structure Crossing where
  gate_x : ℚ
  gate_y : ℚ
  gate_id : ℤ
  travel_dir : String
deriving DecidableEq

/-- The inner helper of `func`: converts a broadcast gate to
`(gate_id, geometry, vx, vy)` where `(vx, vy) = last - head` is the gate's
direction vector. -/
def name_geom (g : GateRec) : ℤ × (Pt × Pt) × ℚ × ℚ :=
  (g.gid, (g.head, g.last), g.last.1 - g.head.1, g.last.2 - g.head.2)

/-- The cross product `px * gy - py * gx` computed inside `func` for a
micropath against a gate. -/
def crossOf (m : SPath) (g : GateRec) : ℚ :=
  (m.x2 - m.x1) * (g.last.2 - g.head.2) - (m.y2 - m.y1) * (g.last.1 - g.head.1)

/-- The crossing record `func` yields for an intersecting (micropath, gate)
pair: the intersection point, the gate id and the direction
`"RL" if cross < 0 else "LR"`. -/
def crossingOf (m : SPath) (g : GateRec) : Crossing :=
  let point := interPoint g.head g.last (m.x1, m.y1) (m.x2, m.y2)
  ⟨point.1, point.2, g.gid, if crossOf m g < 0 then "RL" else "LR"⟩

/-- The per-partition worker `func` of the gate-crossing notebook with its
error path ignored: for every micropath of the partition and every
broadcast gate, emit a crossing record when the gate geometry intersects
the micropath line.  This totalisation agrees with the source whenever no
pair has a positive-length collinear overlap; the faithful fallible worker
is `funcE` below. -/
def func (partition : List SPath) (gates : List GateRec) : List Crossing :=
  partition.flatMap fun mp =>
    let px := mp.x2 - mp.x1
    let py := mp.y2 - mp.y1
    (gates.map name_geom).filterMap fun g =>
      match g with
      | (gate_id, gate_geom, gx, gy) =>
        if segIntersects gate_geom.1 gate_geom.2 (mp.x1, mp.y1) (mp.x2, mp.y2) then
          let point := interPoint gate_geom.1 gate_geom.2 (mp.x1, mp.y1) (mp.x2, mp.y2)
          let cross := px * gy - py * gx
          let lr_rl := if cross < 0 then "RL" else "LR"
          some ⟨point.1, point.2, gate_id, lr_rl⟩
        else none

lemma func_mem_iff {P : List SPath} {G : List GateRec} {c : Crossing} :
    c ∈ func P G ↔
      ∃ m ∈ P, ∃ g ∈ G,
        segIntersects g.head g.last (m.x1, m.y1) (m.x2, m.y2) = true ∧ c = crossingOf m g := by
  simp only [func, List.mem_flatMap, List.mem_filterMap, List.mem_map]
  constructor
  · rintro ⟨m, hm, gt, ⟨g, hg, rfl⟩, hyield⟩
    simp only [name_geom] at hyield
    by_cases hint : segIntersects g.head g.last (m.x1, m.y1) (m.x2, m.y2) = true
    · rw [if_pos hint] at hyield
      refine ⟨m, hm, g, hg, hint, ?_⟩
      simp only [Option.some.injEq] at hyield
      rw [← hyield]
      rfl
    · rw [if_neg hint] at hyield
      exact absurd hyield (by simp)
  · rintro ⟨m, hm, g, hg, hint, rfl⟩
    refine ⟨m, hm, name_geom g, ⟨g, hg, rfl⟩, ?_⟩
    simp only [name_geom, if_pos hint]
    rfl

lemma func_singleton (m : SPath) (g : GateRec) :
    func [m] [g] =
      if segIntersects g.head g.last (m.x1, m.y1) (m.x2, m.y2) then [crossingOf m g] else [] := by
  by_cases h : segIntersects g.head g.last (m.x1, m.y1) (m.x2, m.y2) = true
  · simp [func, name_geom, h, crossingOf, crossOf]
  · simp [func, name_geom, h]

/-- A position report of view `v0`: `mmsi string, x double, y double,
t = unix_timestamp(timestamp)` (integer seconds since 1970, possibly
negative for pre-epoch instants). -/
structure Report where
  mmsi : String
  x : ℚ
  y : ℚ
  t : ℤ
deriving DecidableEq

/-- A row of view `v1` (and, after the `where t1 < t2` filter, of `v2`):
current report joined with its `lead` within the entity partition. -/
structure MPath where
  mmsi : String
  x1 : ℚ
  y1 : ℚ
  t1 : ℤ
  x2 : ℚ
  y2 : ℚ
  t2 : ℤ
deriving DecidableEq

/-- Ordering of reports used by `order by t` inside the window. -/
def reportOrd (a b : Report) : Prop := a.t ≤ b.t

instance : DecidableRel reportOrd := fun a b => inferInstanceAs (Decidable (a.t ≤ b.t))

instance : IsTotal Report reportOrd := ⟨fun a b => le_total a.t b.t⟩

instance : IsTrans Report reportOrd := ⟨fun _ _ _ => le_trans⟩

/-- The `order by t` step of the window specification: a stable t-ascending
sort of the entity partition.  (SQL leaves the order of timestamp ties
unspecified; the embedding fixes the stable one.) -/
def sortReports (l : List Report) : List Report := l.insertionSort reportOrd

/-- The `lead(x,1,0.0) / lead(y,1,0.0) / lead(t,1,0)` window application of
`v1` over one already-sorted entity partition: each row is paired with the
next row, the last row with the defaults `(0.0, 0.0, 0)`. -/
def leadRows : List Report → List MPath
  | [] => []
  | [r] => [⟨r.mmsi, r.x, r.y, r.t, 0, 0, 0⟩]
  | r :: r2 :: rest => ⟨r.mmsi, r.x, r.y, r.t, r2.x, r2.y, r2.t⟩ :: leadRows (r2 :: rest)

/-- The segmenter on one entity partition: `v1` (sort + lead) followed by
the `where t1 < t2` filter of `v2`. -/
def segmentEntity (reports : List Report) : List MPath :=
  (leadRows (sortReports reports)).filter fun m => m.t1 < m.t2

/-- The whole-table segmenter: `partition by mmsi` splits `v0` into entity
partitions, each processed as in `segmentEntity`. -/
def segmentAll (reports : List Report) : List MPath :=
  ((reports.map Report.mmsi).dedup).flatMap fun e =>
    segmentEntity (reports.filter fun r => r.mmsi = e)

/-- Horizontal displacement `dx = x2 - x1` of `v2`. -/
def dx (m : MPath) : ℚ := m.x2 - m.x1

/-- Vertical displacement `dy = y2 - y1` of `v2`. -/
def dy (m : MPath) : ℚ := m.y2 - m.y1

/-- Elapsed time `dt = t2 - t1` of `v2`, in integer seconds. -/
def dtZ (m : MPath) : ℤ := m.t2 - m.t1

/-- Square of the travel distance `dd = sqrt(dx*dx + dy*dy)` of `v3`.
The noise thresholds only compare `dd` (and the speed `mps = dd/dt`)
against nonnegative bounds, so they are expressed exactly through
`ddSq = dd * dd` by monotonicity of the square root. -/
def ddSq (m : MPath) : ℚ := dx m * dx m + dy m * dy m

/-- The noise-elimination predicate of `v5`/`df1`:
`dd between 1 and 1500 and mps < 25 and dt < 130`, written via squares
(`1 ≤ dd ↔ 1 ≤ dd²`, `dd ≤ 1500 ↔ dd² ≤ 1500²`, and — since every row of
`v4` has `dt ≥ 1` — `dd/dt < 25 ↔ dd² < (25*dt)²`). -/
def isClean (m : MPath) : Bool :=
  decide (1 ≤ ddSq m ∧ ddSq m ≤ 1500 * 1500 ∧
    ddSq m < (25 * ((dtZ m : ℚ))) * (25 * ((dtZ m : ℚ))) ∧ dtZ m < 130)

/-- The noise filter: keeps exactly the rows of `v4` satisfying the `where`
clause of `v5`/`df1`. -/
def noiseFilter (l : List MPath) : List MPath := l.filter isClean

/-- Projection of a clean micropath to the four columns `df1` feeds into
`func`. -/
def toSPath (m : MPath) : SPath := ⟨m.x1, m.y1, m.x2, m.y2⟩

/-- Grouping key of the `GateStats` query: `(gate_id, travel_dir)`. -/
def keyOf (c : Crossing) : ℤ × String := (c.gate_id, c.travel_dir)

/-- The `order by gate_id, travel_dir` ordering (ascending, then
ascending). -/
def keyOrd (a b : ℤ × String) : Prop := a.1 < b.1 ∨ (a.1 = b.1 ∧ a.2 ≤ b.2)

instance : DecidableRel keyOrd := fun a b =>
  inferInstanceAs (Decidable (a.1 < b.1 ∨ (a.1 = b.1 ∧ a.2 ≤ b.2)))

instance : IsTotal (ℤ × String) keyOrd :=
  ⟨fun a b => by
    rcases lt_trichotomy a.1 b.1 with h | h | h
    · exact Or.inl (Or.inl h)
    · rcases le_total a.2 b.2 with h2 | h2
      · exact Or.inl (Or.inr ⟨h, h2⟩)
      · exact Or.inr (Or.inr ⟨h.symm, h2⟩)
    · exact Or.inr (Or.inl h)⟩

instance : IsTrans (ℤ × String) keyOrd :=
  ⟨fun a b c hab hbc => by
    rcases hab with h1 | ⟨h1, h1'⟩
    · rcases hbc with h2 | ⟨h2, _⟩
      · exact Or.inl (h1.trans h2)
      · exact Or.inl (h2 ▸ h1)
    · rcases hbc with h2 | ⟨h2, h2'⟩
      · exact Or.inl (h1 ▸ h2)
      · exact Or.inr ⟨h1.trans h2, h1'.trans h2'⟩⟩

/-- A row of the `GateStats` table:
`select gate_id, travel_dir, count(1) cnt ... group by ... order by ...`. -/
structure GStat where
  gate_id : ℤ
  travel_dir : String
  cnt : ℕ
deriving DecidableEq

/-- The `GateStats` aggregation query over the collected crossing records:
group by `(gate_id, travel_dir)`, count the rows of each group
(`count(1)`), order by `gate_id, travel_dir` ascending. -/
def gateStats (cs : List Crossing) : List GStat :=
  (((cs.map keyOf).dedup).insertionSort keyOrd).map fun k =>
    ⟨k.1, k.2, (cs.filter fun c => keyOf c = k).length⟩

/-- The `v1` row pairing two consecutive reports of a partition. -/
def mkPair (r1 r2 : Report) : MPath :=
  ⟨r1.mmsi, r1.x, r1.y, r1.t, r2.x, r2.y, r2.t⟩

/-- The `v1` row built from the last report of a partition and the window
defaults `(0.0, 0.0, 0)`. -/
def mkLast (r : Report) : MPath :=
  ⟨r.mmsi, r.x, r.y, r.t, 0, 0, 0⟩

lemma leadRows_mem {l : List Report} {m : MPath} (hm : m ∈ leadRows l) :
    (∃ l1 r1 r2 l2, l = l1 ++ r1 :: r2 :: l2 ∧ m = mkPair r1 r2) ∨
    (∃ l1 r, l = l1 ++ [r] ∧ m = mkLast r) := by
  induction l with
  | nil => simp [leadRows] at hm
  | cons r rest ih =>
    cases rest with
    | nil =>
      simp only [leadRows, List.mem_singleton] at hm
      exact Or.inr ⟨[], r, rfl, hm⟩
    | cons r2 rest2 =>
      simp only [leadRows] at hm
      rcases List.mem_cons.mp hm with h | h
      · exact Or.inl ⟨[], r, r2, rest2, rfl, h⟩
      · rcases ih h with ⟨l1, r1, r2', l2, hl, hm'⟩ | ⟨l1, r', hl, hm'⟩
        · exact Or.inl ⟨r :: l1, r1, r2', l2, by rw [hl]; rfl, hm'⟩
        · exact Or.inr ⟨r :: l1, r', by rw [hl]; rfl, hm'⟩

lemma leadRows_filter_length {l : List Report}
    (hc : l.Chain' fun a b => a.t < b.t) (h0 : ∀ r ∈ l, 0 ≤ r.t) :
    ((leadRows l).filter fun m => m.t1 < m.t2).length = l.length - 1 := by
  induction l with
  | nil => simp [leadRows]
  | cons r rest ih =>
    cases rest with
    | nil =>
      have hr : (0 : ℤ) ≤ r.t := h0 r (by simp)
      simp only [leadRows, List.filter_cons, List.filter_nil]
      simp [not_lt.mpr hr]
    | cons r2 rest2 =>
      have hlt : r.t < r2.t := (List.chain'_cons.mp hc).1
      have hc2 : (r2 :: rest2).Chain' fun a b => a.t < b.t := (List.chain'_cons.mp hc).2
      have h02 : ∀ x ∈ r2 :: rest2, (0 : ℤ) ≤ x.t := fun x hx => h0 x (List.mem_cons_of_mem _ hx)
      have hrec := ih hc2 h02
      simp only [leadRows, List.filter_cons]
      simp only [List.length_cons] at hrec ⊢
      rw [if_pos (by simpa using hlt)]
      simp only [List.length_cons]
      omega

lemma sortReports_perm (l : List Report) : (sortReports l).Perm l :=
  List.perm_insertionSort _ _

lemma sortReports_sorted (l : List Report) : (sortReports l).Sorted reportOrd :=
  List.sorted_insertionSort _ _

lemma segmentEntity_mem {rs : List Report} {m : MPath} :
    m ∈ segmentEntity rs ↔ m ∈ leadRows (sortReports rs) ∧ m.t1 < m.t2 := by
  simp [segmentEntity, List.mem_filter]

/-- The micropath with its two endpoints exchanged. -/
def swapPath (m : SPath) : SPath := ⟨m.x2, m.y2, m.x1, m.y1⟩

/-- The gate with the order of its two points reversed. -/
def revGate (g : GateRec) : GateRec := ⟨g.gid, g.last, g.head⟩

/-- Exchange of the two direction labels. -/
def flipDir (s : String) : String := if s = "RL" then "LR" else "RL"

/-- A crossing record with its direction label exchanged. -/
def flipCrossing (c : Crossing) : Crossing :=
  ⟨c.gate_x, c.gate_y, c.gate_id, flipDir c.travel_dir⟩

lemma onSeg_symm {p a b : Pt} (h : OnSeg p a b) : OnSeg p b a := by
  obtain ⟨s, hs0, hs1, hx, hy⟩ := h
  exact ⟨1 - s, by linarith, by linarith, by linarith, by linarith⟩

lemma segMeets_swap_right {a b c d : Pt} : SegMeets a b d c ↔ SegMeets a b c d :=
  exists_congr fun _ => and_congr_right fun _ => ⟨onSeg_symm, onSeg_symm⟩

lemma segMeets_swap_left {a b c d : Pt} : SegMeets b a c d ↔ SegMeets a b c d :=
  exists_congr fun _ => and_congr_left fun _ => ⟨onSeg_symm, onSeg_symm⟩

lemma segMeets_comm {a b c d : Pt} : SegMeets a b c d ↔ SegMeets c d a b :=
  exists_congr fun _ => and_comm

lemma segIntersects_swap_right (a b c d : Pt) :
    segIntersects a b d c = segIntersects a b c d := by
  rw [Bool.eq_iff_iff, segIntersects_iff_segMeets, segIntersects_iff_segMeets]
  exact segMeets_swap_right

lemma segIntersects_swap_left (a b c d : Pt) :
    segIntersects b a c d = segIntersects a b c d := by
  rw [Bool.eq_iff_iff, segIntersects_iff_segMeets, segIntersects_iff_segMeets]
  exact segMeets_swap_left

lemma interPoint_swap_right {a b c d : Pt}
    (hD : crossP (b.1 - a.1, b.2 - a.2) (d.1 - c.1, d.2 - c.2) ≠ 0) :
    interPoint a b d c = interPoint a b c d := by
  have hD' : crossP (b.1 - a.1, b.2 - a.2) (c.1 - d.1, c.2 - d.2) ≠ 0 := by
    simp only [crossP] at hD ⊢
    intro h
    exact hD (by linarith)
  simp only [interPoint]
  rw [if_pos hD', if_pos hD]
  have e1 : crossP (d.1 - a.1, d.2 - a.2) (c.1 - d.1, c.2 - d.2) /
        crossP (b.1 - a.1, b.2 - a.2) (c.1 - d.1, c.2 - d.2) =
      crossP (c.1 - a.1, c.2 - a.2) (d.1 - c.1, d.2 - c.2) /
        crossP (b.1 - a.1, b.2 - a.2) (d.1 - c.1, d.2 - c.2) := by
    rw [div_eq_div_iff hD' hD]
    simp only [crossP]
    ring
  rw [e1]

lemma interPoint_swap_left {a b c d : Pt}
    (hD : crossP (b.1 - a.1, b.2 - a.2) (d.1 - c.1, d.2 - c.2) ≠ 0) :
    interPoint b a c d = interPoint a b c d := by
  have hD' : crossP (a.1 - b.1, a.2 - b.2) (d.1 - c.1, d.2 - c.2) ≠ 0 := by
    simp only [crossP] at hD ⊢
    intro h
    exact hD (by linarith)
  simp only [interPoint]
  rw [if_pos hD', if_pos hD]
  simp only [crossP] at hD hD' ⊢
  rw [Prod.ext_iff]
  constructor
  · simp only
    field_simp
    ring
  · simp only
    field_simp
    ring

/-- The intersection of segments `[a, b]` and `[c, d]` contains two
distinct points, i.e. is a positive-length collinear overlap — exactly the
case where shapely returns a `LineString` rather than a `Point` and the
source's `point.x` raises `AttributeError`. -/
def OverlapMeets (a b c d : Pt) : Prop :=
  ∃ p q : Pt, p ≠ q ∧ OnSeg p a b ∧ OnSeg p c d ∧ OnSeg q a b ∧ OnSeg q c d

/-- Exact decision of `OverlapMeets` on `u = b - a`, `v = d - c`,
`w = c - a`: the segments must be parallel, `[a, b]` of positive length,
`c` on the line of `[a, b]`, and the parameter range of `[c, d]` along `u`
must meet `[0, 1]` in more than one point. -/
def paramOverlap (u v w : Pt) : Bool :=
  decide (crossP u v = 0 ∧ u ≠ ((0 : ℚ), (0 : ℚ)) ∧ crossP u w = 0 ∧
    max 0 (min (dotP w u / dotP u u) (dotP w u / dotP u u + dotP v u / dotP u u)) <
      min 1 (max (dotP w u / dotP u u) (dotP w u / dotP u u + dotP v u / dotP u u)))

/-- Decision of the `LineString`-intersection (error) case for segments
`[a, b]` and `[c, d]`. -/
def segOverlaps (a b c d : Pt) : Bool :=
  paramOverlap (b.1 - a.1, b.2 - a.2) (d.1 - c.1, d.2 - c.2) (c.1 - a.1, c.2 - a.2)

lemma ne_zero_comp {u : Pt} (hu : u ≠ ((0 : ℚ), (0 : ℚ))) : u.1 ≠ 0 ∨ u.2 ≠ 0 := by
  by_contra hc
  push_neg at hc
  exact hu (Prod.ext hc.1 hc.2)

/-- The affine image of `[0, 1]` under `t ↦ μ + t * r` stays between `μ`
and `μ + r`. -/
lemma affine_param_range {μ r t : ℚ} (ht0 : 0 ≤ t) (ht1 : t ≤ 1) :
    min μ (μ + r) ≤ μ + t * r ∧ μ + t * r ≤ max μ (μ + r) := by
  rcases le_total 0 r with hr | hr
  · constructor
    · have := min_le_left μ (μ + r)
      nlinarith
    · have := le_max_right μ (μ + r)
      nlinarith
  · constructor
    · have := min_le_right μ (μ + r)
      nlinarith
    · have := le_max_left μ (μ + r)
      nlinarith

/-- Inverse of `affine_param_range`: a value between `μ` and `μ + r` has
its parameter in `[0, 1]`. -/
lemma div_param_unit {μ r x : ℚ} (hr : r ≠ 0)
    (h1 : min μ (μ + r) ≤ x) (h2 : x ≤ max μ (μ + r)) :
    0 ≤ (x - μ) / r ∧ (x - μ) / r ≤ 1 := by
  rcases lt_or_gt_of_ne hr with hneg | hpos
  · have hmin : min μ (μ + r) = μ + r := min_eq_right (by linarith)
    have hmax : max μ (μ + r) = μ := max_eq_left (by linarith)
    rw [hmin] at h1
    rw [hmax] at h2
    constructor
    · exact div_nonneg_iff.mpr (Or.inr ⟨by linarith, le_of_lt hneg⟩)
    · rw [div_le_one_of_neg hneg]
      linarith
  · have hmin : min μ (μ + r) = μ := min_eq_left (by linarith)
    have hmax : max μ (μ + r) = μ + r := max_eq_right (by linarith)
    rw [hmin] at h1
    rw [hmax] at h2
    constructor
    · exact div_nonneg (by linarith) (le_of_lt hpos)
    · rw [div_le_one hpos]
      linarith

/-- Correctness of the overlap (error-case) decision against the
set-level meaning. -/
theorem segOverlaps_iff (a b c d : Pt) :
    segOverlaps a b c d = true ↔ OverlapMeets a b c d := by
  rw [segOverlaps, paramOverlap, decide_eq_true_eq]
  constructor
  · rintro ⟨hD, hu, hcol, hlt⟩
    set μ : ℚ := dotP (c.1 - a.1, c.2 - a.2) (b.1 - a.1, b.2 - a.2) /
      dotP (b.1 - a.1, b.2 - a.2) (b.1 - a.1, b.2 - a.2) with hmu
    set r : ℚ := dotP (d.1 - c.1, d.2 - c.2) (b.1 - a.1, b.2 - a.2) /
      dotP (b.1 - a.1, b.2 - a.2) (b.1 - a.1, b.2 - a.2) with hrdef
    have hw := vec_decomp hu hcol
    have hv := vec_decomp hu hD
    rw [← hmu] at hw
    rw [← hrdef] at hv
    simp only at hw hv
    have hrne : r ≠ 0 := by
      intro h0
      rw [h0] at hlt
      simp only [add_zero, min_self, max_self] at hlt
      have h1 : μ ≤ max 0 μ := le_max_right _ _
      have h2 : min 1 μ ≤ μ := min_le_right _ _
      linarith
    have hlo0 : (0 : ℚ) ≤ max 0 (min μ (μ + r)) := le_max_left _ _
    have hhi1 : min 1 (max μ (μ + r)) ≤ 1 := min_le_left _ _
    have hlomin : min μ (μ + r) ≤ max 0 (min μ (μ + r)) := le_max_right _ _
    have hhimax : min 1 (max μ (μ + r)) ≤ max μ (μ + r) := min_le_right _ _
    have hlomax : max 0 (min μ (μ + r)) ≤ max μ (μ + r) := le_trans (le_of_lt hlt) hhimax
    have hhimin : min μ (μ + r) ≤ min 1 (max μ (μ + r)) := le_trans hlomin (le_of_lt hlt)
    have hlo1 : max 0 (min μ (μ + r)) ≤ 1 := le_trans (le_of_lt hlt) hhi1
    have hhi0 : (0 : ℚ) ≤ min 1 (max μ (μ + r)) := le_trans hlo0 (le_of_lt hlt)
    have hc1 : c.1 = a.1 + μ * (b.1 - a.1) := by linarith [hw.1]
    have hc2 : c.2 = a.2 + μ * (b.2 - a.2) := by linarith [hw.2]
    refine ⟨(a.1 + max 0 (min μ (μ + r)) * (b.1 - a.1),
             a.2 + max 0 (min μ (μ + r)) * (b.2 - a.2)),
            (a.1 + min 1 (max μ (μ + r)) * (b.1 - a.1),
             a.2 + min 1 (max μ (μ + r)) * (b.2 - a.2)), ?_, ?_, ?_, ?_, ?_⟩
    · intro heq
      have e1 : max 0 (min μ (μ + r)) * (b.1 - a.1) = min 1 (max μ (μ + r)) * (b.1 - a.1) := by
        have := congrArg Prod.fst heq
        simp only at this
        linarith
      have e2 : max 0 (min μ (μ + r)) * (b.2 - a.2) = min 1 (max μ (μ + r)) * (b.2 - a.2) := by
        have := congrArg Prod.snd heq
        simp only at this
        linarith
      rcases ne_zero_comp hu with h | h
      · simp only at h
        exact absurd (mul_right_cancel₀ h e1) (ne_of_lt hlt)
      · simp only at h
        exact absurd (mul_right_cancel₀ h e2) (ne_of_lt hlt)
    · exact ⟨max 0 (min μ (μ + r)), hlo0, hlo1, rfl, rfl⟩
    · refine ⟨(max 0 (min μ (μ + r)) - μ) / r,
        (div_param_unit hrne hlomin hlomax).1, (div_param_unit hrne hlomin hlomax).2, ?_, ?_⟩
      · simp only
        rw [show d.1 - c.1 = r * (b.1 - a.1) from hv.1, hc1]
        field_simp
        ring
      · simp only
        rw [show d.2 - c.2 = r * (b.2 - a.2) from hv.2, hc2]
        field_simp
        ring
    · exact ⟨min 1 (max μ (μ + r)), hhi0, hhi1, rfl, rfl⟩
    · refine ⟨(min 1 (max μ (μ + r)) - μ) / r,
        (div_param_unit hrne hhimin hhimax).1, (div_param_unit hrne hhimin hhimax).2, ?_, ?_⟩
      · simp only
        rw [show d.1 - c.1 = r * (b.1 - a.1) from hv.1, hc1]
        field_simp
        ring
      · simp only
        rw [show d.2 - c.2 = r * (b.2 - a.2) from hv.2, hc2]
        field_simp
        ring
  · rintro ⟨p, q, hpq, ⟨sp, hsp0, hsp1, hpx, hpy⟩, ⟨tp, htp0, htp1, hpx2, hpy2⟩,
      ⟨sq, hsq0, hsq1, hqx, hqy⟩, ⟨tq, htq0, htq1, hqx2, hqy2⟩⟩
    have hu : (b.1 - a.1, b.2 - a.2) ≠ ((0 : ℚ), (0 : ℚ)) := by
      intro h0
      have h1 : b.1 - a.1 = 0 := congrArg Prod.fst h0
      have h2 : b.2 - a.2 = 0 := congrArg Prod.snd h0
      refine hpq (Prod.ext ?_ ?_)
      · rw [hpx, hqx, h1]
        ring
      · rw [hpy, hqy, h2]
        ring
    have e1p : sp * (b.1 - a.1) - tp * (d.1 - c.1) = c.1 - a.1 := by linarith
    have e2p : sp * (b.2 - a.2) - tp * (d.2 - c.2) = c.2 - a.2 := by linarith
    have e1q : sq * (b.1 - a.1) - tq * (d.1 - c.1) = c.1 - a.1 := by linarith
    have e2q : sq * (b.2 - a.2) - tq * (d.2 - c.2) = c.2 - a.2 := by linarith
    have hD : crossP (b.1 - a.1, b.2 - a.2) (d.1 - c.1, d.2 - c.2) = 0 := by
      by_contra hD
      have hsp : sp * crossP (b.1 - a.1, b.2 - a.2) (d.1 - c.1, d.2 - c.2) =
          crossP (c.1 - a.1, c.2 - a.2) (d.1 - c.1, d.2 - c.2) := by
        simp only [crossP]
        linear_combination (d.2 - c.2) * e1p - (d.1 - c.1) * e2p
      have hsq : sq * crossP (b.1 - a.1, b.2 - a.2) (d.1 - c.1, d.2 - c.2) =
          crossP (c.1 - a.1, c.2 - a.2) (d.1 - c.1, d.2 - c.2) := by
        simp only [crossP]
        linear_combination (d.2 - c.2) * e1q - (d.1 - c.1) * e2q
      have heq : sp = sq := mul_right_cancel₀ hD (hsp.trans hsq.symm)
      refine hpq (Prod.ext ?_ ?_)
      · rw [hpx, hqx, heq]
      · rw [hpy, hqy, heq]
    have hDc : (b.1 - a.1) * (d.2 - c.2) - (b.2 - a.2) * (d.1 - c.1) = 0 := by
      simpa [crossP] using hD
    have hcol : crossP (b.1 - a.1, b.2 - a.2) (c.1 - a.1, c.2 - a.2) = 0 := by
      simp only [crossP]
      linear_combination (b.2 - a.2) * e1p - (b.1 - a.1) * e2p - tp * hDc
    have hdd : (0 : ℚ) < dotP (b.1 - a.1, b.2 - a.2) (b.1 - a.1, b.2 - a.2) :=
      dotP_self_pos hu
    set μ : ℚ := dotP (c.1 - a.1, c.2 - a.2) (b.1 - a.1, b.2 - a.2) /
      dotP (b.1 - a.1, b.2 - a.2) (b.1 - a.1, b.2 - a.2) with hmu
    set r : ℚ := dotP (d.1 - c.1, d.2 - c.2) (b.1 - a.1, b.2 - a.2) /
      dotP (b.1 - a.1, b.2 - a.2) (b.1 - a.1, b.2 - a.2) with hrdef
    have hdotp : sp * dotP (b.1 - a.1, b.2 - a.2) (b.1 - a.1, b.2 - a.2) -
        tp * dotP (d.1 - c.1, d.2 - c.2) (b.1 - a.1, b.2 - a.2) =
        dotP (c.1 - a.1, c.2 - a.2) (b.1 - a.1, b.2 - a.2) := by
      simp only [dotP]
      linear_combination (b.1 - a.1) * e1p + (b.2 - a.2) * e2p
    have hdotq : sq * dotP (b.1 - a.1, b.2 - a.2) (b.1 - a.1, b.2 - a.2) -
        tq * dotP (d.1 - c.1, d.2 - c.2) (b.1 - a.1, b.2 - a.2) =
        dotP (c.1 - a.1, c.2 - a.2) (b.1 - a.1, b.2 - a.2) := by
      simp only [dotP]
      linear_combination (b.1 - a.1) * e1q + (b.2 - a.2) * e2q
    have hspμ : sp = μ + tp * r := by
      rw [hmu, hrdef]
      field_simp
      linarith
    have hsqμ : sq = μ + tq * r := by
      rw [hmu, hrdef]
      field_simp
      linarith
    have hrp := affine_param_range (μ := μ) (r := r) htp0 htp1
    have hrq := affine_param_range (μ := μ) (r := r) htq0 htq1
    rw [← hspμ] at hrp
    rw [← hsqμ] at hrq
    have hne : sp ≠ sq := by
      intro h
      refine hpq (Prod.ext ?_ ?_)
      · rw [hpx, hqx, h]
      · rw [hpy, hqy, h]
    refine ⟨hD, hu, hcol, ?_⟩
    have hplo : max 0 (min μ (μ + r)) ≤ sp := max_le hsp0 hrp.1
    have hphi : sp ≤ min 1 (max μ (μ + r)) := le_min hsp1 hrp.2
    have hqlo : max 0 (min μ (μ + r)) ≤ sq := max_le hsq0 hrq.1
    have hqhi : sq ≤ min 1 (max μ (μ + r)) := le_min hsq1 hrq.2
    rcases lt_or_gt_of_ne hne with h | h
    · linarith
    · linarith

/-- Message of the `AttributeError` raised by `point.x` when the shapely
intersection is a `LineString` rather than a `Point`. -/
def attrError : String := "AttributeError: LineString object has no attribute x"

/-- One micropath of the partition against the converted gates, with the
source's error path: an intersecting pair whose intersection is a
positive-length overlap makes `point.x` raise, failing the task. -/
def funcRow (mp : SPath) : List (ℤ × (Pt × Pt) × ℚ × ℚ) → Except String (List Crossing)
  | [] => Except.ok []
  | g :: rest =>
    match g with
    | (gate_id, gate_geom, gx, gy) =>
      if segIntersects gate_geom.1 gate_geom.2 (mp.x1, mp.y1) (mp.x2, mp.y2) then
        if segOverlaps gate_geom.1 gate_geom.2 (mp.x1, mp.y1) (mp.x2, mp.y2) then
          Except.error attrError
        else
          (funcRow mp rest).map fun more =>
            (let point := interPoint gate_geom.1 gate_geom.2 (mp.x1, mp.y1) (mp.x2, mp.y2)
             let cross := (mp.x2 - mp.x1) * gy - (mp.y2 - mp.y1) * gx
             let lr_rl := if cross < 0 then "RL" else "LR"
             (⟨point.1, point.2, gate_id, lr_rl⟩ : Crossing)) :: more
      else funcRow mp rest

/-- The per-partition worker `func` with its fallible `point.x` access
modelled: the full crossing list when every intersection is a point or
empty, `Except.error` (the task failure the source exhibits) when some
intersecting pair overlaps in a positive-length `LineString`. -/
def funcE : List SPath → List GateRec → Except String (List Crossing)
  | [], _ => Except.ok []
  | mp :: rest, gates =>
    match funcRow mp (gates.map name_geom), funcE rest gates with
    | Except.ok row, Except.ok more => Except.ok (row ++ more)
    | Except.error e, _ => Except.error e
    | Except.ok _, Except.error e => Except.error e

lemma funcE_singleton (m : SPath) (g : GateRec) :
    funcE [m] [g] =
      if segIntersects g.head g.last (m.x1, m.y1) (m.x2, m.y2) then
        if segOverlaps g.head g.last (m.x1, m.y1) (m.x2, m.y2) then Except.error attrError
        else Except.ok [crossingOf m g]
      else Except.ok [] := by
  by_cases hint : segIntersects g.head g.last (m.x1, m.y1) (m.x2, m.y2) = true
  · by_cases hov : segOverlaps g.head g.last (m.x1, m.y1) (m.x2, m.y2) = true
    · simp [funcE, funcRow, name_geom, hint, hov]
    · simp [funcE, funcRow, name_geom, hint, hov, Except.map, crossingOf, crossOf]
  · simp [funcE, funcRow, name_geom, hint]

lemma overlapMeets_comm {a b c d : Pt} : OverlapMeets a b c d ↔ OverlapMeets c d a b := by
  constructor <;> rintro ⟨p, q, hpq, h1, h2, h3, h4⟩ <;> exact ⟨p, q, hpq, h2, h1, h4, h3⟩

lemma overlapMeets_segMeets {a b c d : Pt} (h : OverlapMeets a b c d) : SegMeets a b c d := by
  obtain ⟨p, _, _, h1, h2, _, _⟩ := h
  exact ⟨p, h1, h2⟩

/-- C5 counterexample: gate `(0,0) → (10,0)` and micropath `(2,0) → (8,0)`
have a non-empty geometric intersection (a positive-length collinear
overlap), yet no Crossing is emitted: `point.x` raises `AttributeError`
and the task fails. -/
theorem emission_iff_cex :
    SegMeets ((2 : ℚ), (0 : ℚ)) ((8 : ℚ), (0 : ℚ)) ((0 : ℚ), (0 : ℚ)) ((10 : ℚ), (0 : ℚ)) ∧
    funcE [⟨2, 0, 8, 0⟩] [⟨1, (0, 0), (10, 0)⟩] = Except.error attrError := by
  constructor
  · exact ⟨((2 : ℚ), (0 : ℚ)), ⟨0, le_refl 0, zero_le_one, by norm_num, by norm_num⟩,
      ⟨1 / 5, by norm_num, by norm_num, by norm_num, by norm_num⟩⟩
  · rw [funcE_singleton]
    rw [if_pos (by simp only [segIntersects, paramHit, crossP, dotP]; norm_num)]
    rw [if_pos (by simp only [segOverlaps, paramOverlap, crossP, dotP]; norm_num)]

/-- C5 amended: per (micropath, gate) pair, the detector emits a Crossing
exactly when the geometric intersection is non-empty and is a single
point; an empty intersection (parallel, collinear-but-disjoint, or no
contact) contributes zero records; a positive-length collinear overlap
instead makes the worker raise `AttributeError` on `point.x` (task
failure), so no Crossing is produced there either. -/
theorem emission_characterization (m : SPath) (g : GateRec) :
    (¬ SegMeets (m.x1, m.y1) (m.x2, m.y2) g.head g.last →
      funcE [m] [g] = Except.ok []) ∧
    (SegMeets (m.x1, m.y1) (m.x2, m.y2) g.head g.last →
      ¬ OverlapMeets (m.x1, m.y1) (m.x2, m.y2) g.head g.last →
      funcE [m] [g] = Except.ok [crossingOf m g]) ∧
    (OverlapMeets (m.x1, m.y1) (m.x2, m.y2) g.head g.last →
      funcE [m] [g] = Except.error attrError) := by
  have hmeets := segIntersects_iff_segMeets g.head g.last (m.x1, m.y1) (m.x2, m.y2)
  have hovs := segOverlaps_iff g.head g.last (m.x1, m.y1) (m.x2, m.y2)
  refine ⟨?_, ?_, ?_⟩
  · intro hn
    rw [funcE_singleton, if_neg fun hint => hn (segMeets_comm.mpr (hmeets.mp hint))]
  · intro hs hno
    rw [funcE_singleton, if_pos (hmeets.mpr (segMeets_comm.mp hs)),
      if_neg fun hov => hno (overlapMeets_comm.mpr (hovs.mp hov))]
  · intro hov
    rw [funcE_singleton,
      if_pos (hmeets.mpr (segMeets_comm.mp (overlapMeets_segMeets hov))),
      if_pos (hovs.mpr (overlapMeets_comm.mp hov))]

/-- Witness for the amended C5 at the transversal scenario-2 pair. -/
theorem emission_characterization_witness :
    SegMeets ((0 : ℚ), (0 : ℚ)) ((10 : ℚ), (0 : ℚ)) ((5 : ℚ), (-5 : ℚ)) ((5 : ℚ), (5 : ℚ)) ∧
    ¬ OverlapMeets ((0 : ℚ), (0 : ℚ)) ((10 : ℚ), (0 : ℚ)) ((5 : ℚ), (-5 : ℚ)) ((5 : ℚ), (5 : ℚ)) ∧
    funcE [⟨0, 0, 10, 0⟩] [⟨1, (5, -5), (5, 5)⟩] =
      Except.ok [crossingOf ⟨0, 0, 10, 0⟩ ⟨1, (5, -5), (5, 5)⟩] := by
  have hs : SegMeets ((0 : ℚ), (0 : ℚ)) ((10 : ℚ), (0 : ℚ))
      ((5 : ℚ), (-5 : ℚ)) ((5 : ℚ), (5 : ℚ)) :=
    ⟨((5 : ℚ), (0 : ℚ)), ⟨1 / 2, by norm_num, by norm_num, by norm_num, by norm_num⟩,
      ⟨1 / 2, by norm_num, by norm_num, by norm_num, by norm_num⟩⟩
  have hov : segOverlaps ((5 : ℚ), (-5 : ℚ)) ((5 : ℚ), (5 : ℚ))
      ((0 : ℚ), (0 : ℚ)) ((10 : ℚ), (0 : ℚ)) = false := by
    simp only [segOverlaps, paramOverlap, crossP, dotP]
    norm_num
  have hno : ¬ OverlapMeets ((0 : ℚ), (0 : ℚ)) ((10 : ℚ), (0 : ℚ))
      ((5 : ℚ), (-5 : ℚ)) ((5 : ℚ), (5 : ℚ)) := by
    intro h
    have htrue := (segOverlaps_iff ((5 : ℚ), (-5 : ℚ)) ((5 : ℚ), (5 : ℚ))
      ((0 : ℚ), (0 : ℚ)) ((10 : ℚ), (0 : ℚ))).mpr (overlapMeets_comm.mp h)
    rw [hov] at htrue
    exact absurd htrue (by simp)
  exact ⟨hs, hno,
    (emission_characterization ⟨0, 0, 10, 0⟩ ⟨1, (5, -5), (5, 5)⟩).2.1 hs hno⟩

lemma func_eval_sc2 :
    func [⟨0, 0, 10, 0⟩] [⟨1, (5, -5), (5, 5)⟩] = [⟨5, 0, 1, "LR"⟩] := by
  rw [func_singleton]
  rw [if_pos (by simp only [segIntersects, paramHit, crossP, dotP]; norm_num)]
  simp only [crossingOf, crossOf, interPoint, crossP, dotP]
  norm_num

/-- C1: for every Crossing emitted by `func`, with `(px, py)` the
micropath's displacement and `(gx, gy)` the gate's direction vector, the
travel direction is "RL" exactly when `cross = px*gy - py*gx < 0` and "LR"
otherwise (`cross ≥ 0`, zero included). -/
theorem direction_classification_sign (P : List SPath) (G : List GateRec) (c : Crossing)
    (hc : c ∈ func P G) :
    ∃ m ∈ P, ∃ g ∈ G, c.gate_id = g.gid ∧
      (c.travel_dir = "RL" ↔ crossOf m g < 0) ∧
      (c.travel_dir = "LR" ↔ 0 ≤ crossOf m g) := by
  obtain ⟨m, hm, g, hg, hint, rfl⟩ := func_mem_iff.mp hc
  have hdir : (crossingOf m g).travel_dir = if crossOf m g < 0 then "RL" else "LR" := rfl
  refine ⟨m, hm, g, hg, rfl, ?_, ?_⟩
  · rw [hdir]
    rcases lt_or_le (crossOf m g) 0 with h | h
    · rw [if_pos h]
      exact ⟨fun _ => h, fun _ => rfl⟩
    · rw [if_neg (not_lt.mpr h)]
      exact ⟨fun hEq => absurd hEq (by decide), fun hlt => absurd hlt (not_lt.mpr h)⟩
  · rw [hdir]
    rcases lt_or_le (crossOf m g) 0 with h | h
    · rw [if_pos h]
      exact ⟨fun hEq => absurd hEq (by decide), fun hge => absurd h (not_lt.mpr hge)⟩
    · rw [if_neg (not_lt.mpr h)]
      exact ⟨fun _ => h, fun _ => rfl⟩

/-- Witness for C1 at end-to-end scenario 2: gate `(5,-5) → (5,5)`, segment
`(0,0) → (10,0)`, crossing at `(5,0)` classified "LR". -/
theorem direction_classification_sign_witness :
    (⟨5, 0, 1, "LR"⟩ : Crossing) ∈ func [⟨0, 0, 10, 0⟩] [⟨1, (5, -5), (5, 5)⟩] ∧
    ∃ m ∈ [(⟨0, 0, 10, 0⟩ : SPath)], ∃ g ∈ [(⟨1, (5, -5), (5, 5)⟩ : GateRec)],
      (⟨5, 0, 1, "LR"⟩ : Crossing).gate_id = g.gid ∧
      ((⟨5, 0, 1, "LR"⟩ : Crossing).travel_dir = "RL" ↔ crossOf m g < 0) ∧
      ((⟨5, 0, 1, "LR"⟩ : Crossing).travel_dir = "LR" ↔ 0 ≤ crossOf m g) := by
  have hmem : (⟨5, 0, 1, "LR"⟩ : Crossing) ∈ func [⟨0, 0, 10, 0⟩] [⟨1, (5, -5), (5, 5)⟩] := by
    rw [func_eval_sc2]
    exact List.mem_singleton.mpr rfl
  exact ⟨hmem, direction_classification_sign _ _ _ hmem⟩

/-- C4: the noise filter's output is exactly the subset of its input with
`dd ∈ [1, 1500]`, `mps < 25` and `dt < 130` (distance and speed compared
through their squares, `dd` and `mps` being nonnegative); no other record
survives and no record is created. -/
theorem noise_filter_exact (l : List MPath) :
    (noiseFilter l).Sublist l ∧
    ∀ m, m ∈ noiseFilter l ↔
      m ∈ l ∧ 1 ≤ ddSq m ∧ ddSq m ≤ 1500 * 1500 ∧
        ddSq m < (25 * ((dtZ m : ℤ) : ℚ)) * (25 * ((dtZ m : ℤ) : ℚ)) ∧ dtZ m < 130 := by
  refine ⟨List.filter_sublist _, fun m => ?_⟩
  simp [noiseFilter, List.mem_filter, isClean, and_assoc]

/-- C7: every micropath emitted by the segmenter satisfies `t1 < t2`
strictly; candidates with `t1 = t2` or `t1 > t2` are never emitted. -/
theorem emitted_t1_lt_t2 (rs : List Report) (m : MPath) (hm : m ∈ segmentAll rs) :
    m.t1 < m.t2 := by
  simp only [segmentAll, List.mem_flatMap] at hm
  obtain ⟨e, _, hm⟩ := hm
  exact (segmentEntity_mem.mp hm).2

/-- Witness for C7 at a two-report entity. -/
theorem emitted_t1_lt_t2_witness :
    (⟨"a", 0, 0, 0, 10, 0, 10⟩ : MPath) ∈ segmentAll [⟨"a", 0, 0, 0⟩, ⟨"a", 10, 0, 10⟩] ∧
    (⟨"a", 0, 0, 0, 10, 0, 10⟩ : MPath).t1 < (⟨"a", 0, 0, 0, 10, 0, 10⟩ : MPath).t2 :=
  ⟨by decide, emitted_t1_lt_t2 [⟨"a", 0, 0, 0⟩, ⟨"a", 10, 0, 10⟩] ⟨"a", 0, 0, 0, 10, 0, 10⟩
    (by decide)⟩

/-- C10 (implicit): the `t1 < t2` filter over integer-second timestamps
forces `dt = t2 - t1 ≥ 1` on every emitted micropath, so the divisor of
`mps = dd/dt` is never zero and the speed is well defined. -/
theorem emitted_dt_ge_one (rs : List Report) (m : MPath) (hm : m ∈ segmentAll rs) :
    1 ≤ dtZ m ∧ ((dtZ m : ℤ) : ℚ) ≠ 0 := by
  simp only [segmentAll, List.mem_flatMap] at hm
  obtain ⟨e, _, hm⟩ := hm
  have h := (segmentEntity_mem.mp hm).2
  have h1 : 1 ≤ dtZ m := by
    simp only [dtZ]
    omega
  exact ⟨h1, Int.cast_ne_zero.mpr (by omega)⟩

/-- Witness for C10 at a two-report entity. -/
theorem emitted_dt_ge_one_witness :
    (⟨"b", 0, 0, 3, 4, 0, 7⟩ : MPath) ∈ segmentAll [⟨"b", 0, 0, 3⟩, ⟨"b", 4, 0, 7⟩] ∧
    (1 ≤ dtZ ⟨"b", 0, 0, 3, 4, 0, 7⟩ ∧ ((dtZ ⟨"b", 0, 0, 3, 4, 0, 7⟩ : ℤ) : ℚ) ≠ 0) :=
  ⟨by decide, emitted_dt_ge_one [⟨"b", 0, 0, 3⟩, ⟨"b", 4, 0, 7⟩] ⟨"b", 0, 0, 3, 4, 0, 7⟩
    (by decide)⟩

/-- C2 counterexample: an entity with `n = 2` reports sharing one timestamp
yields `0` micropaths, not `n - 1 = 1` (the `t1 < t2` filter drops the
duplicate pair). -/
theorem segment_count_cex :
    ([(⟨"a", 0, 0, 5⟩ : Report), ⟨"a", 1, 1, 5⟩].length = 2) ∧
    (segmentEntity [⟨"a", 0, 0, 5⟩, ⟨"a", 1, 1, 5⟩]).length ≠ 2 - 1 := by
  decide

/-- C2 amended: for an entity partition whose timestamps are pairwise
distinct and nonnegative, the segmenter emits exactly `n - 1` micropaths. -/
theorem segment_count_amended (rs : List Report)
    (hnd : (rs.map Report.t).Nodup) (h0 : ∀ r ∈ rs, 0 ≤ r.t) :
    (segmentEntity rs).length = rs.length - 1 := by
  have hperm := sortReports_perm rs
  have hsorted := sortReports_sorted rs
  have hndm : ((sortReports rs).map Report.t).Nodup := ((hperm.map Report.t).nodup_iff).mpr hnd
  have hpw_ne : (sortReports rs).Pairwise fun a b => a.t ≠ b.t := List.pairwise_map.mp hndm
  have hpw_lt : (sortReports rs).Pairwise fun a b => a.t < b.t :=
    (hsorted.and hpw_ne).imp fun h => lt_of_le_of_ne h.1 h.2
  have hchain := hpw_lt.chain'
  have h0' : ∀ r ∈ sortReports rs, 0 ≤ r.t := fun r hr => h0 r (hperm.subset hr)
  rw [segmentEntity, leadRows_filter_length hchain h0', hperm.length_eq]

/-- Witness for the amended C2 at a three-report entity. -/
theorem segment_count_amended_witness :
    (([(⟨"a", 0, 0, 0⟩ : Report), ⟨"a", 10, 0, 10⟩, ⟨"a", 20, 0, 1000⟩].map Report.t).Nodup) ∧
    (∀ r ∈ [(⟨"a", 0, 0, 0⟩ : Report), ⟨"a", 10, 0, 10⟩, ⟨"a", 20, 0, 1000⟩], 0 ≤ r.t) ∧
    (segmentEntity [(⟨"a", 0, 0, 0⟩ : Report), ⟨"a", 10, 0, 10⟩, ⟨"a", 20, 0, 1000⟩]).length =
      [(⟨"a", 0, 0, 0⟩ : Report), ⟨"a", 10, 0, 10⟩, ⟨"a", 20, 0, 1000⟩].length - 1 :=
  ⟨by decide, by decide,
    segment_count_amended [⟨"a", 0, 0, 0⟩, ⟨"a", 10, 0, 10⟩, ⟨"a", 20, 0, 1000⟩]
      (by decide) (by decide)⟩

/-- C3 counterexample: a single report with a pre-epoch timestamp leaks the
`lead` defaults `(0.0, 0.0, 0)` as a synthetic segment (its `t1 = -5 < 0 = t2`
passes the filter), although one report should pair with nothing. -/
theorem no_synthetic_cex :
    segmentEntity [⟨"a", 3, 4, -5⟩] = [⟨"a", 3, 4, -5, 0, 0, 0⟩] := by
  decide

/-- C3 amended: provided every timestamp is nonnegative, every emitted
micropath pairs two input reports that are adjacent in the timestamp-sorted
order of the partition; no lead-default synthetic segment survives. -/
theorem no_synthetic_amended (rs : List Report) (h0 : ∀ r ∈ rs, 0 ≤ r.t)
    (m : MPath) (hm : m ∈ segmentEntity rs) :
    ∃ l1 r1 r2 l2, sortReports rs = l1 ++ r1 :: r2 :: l2 ∧
      r1 ∈ rs ∧ r2 ∈ rs ∧ m = mkPair r1 r2 := by
  obtain ⟨hmem, hlt⟩ := segmentEntity_mem.mp hm
  rcases leadRows_mem hmem with ⟨l1, r1, r2, l2, hl, hm'⟩ | ⟨l1, r, hl, hm'⟩
  · have hr1 : r1 ∈ sortReports rs := by
      rw [hl]
      exact List.mem_append.mpr (Or.inr (List.mem_cons_self _ _))
    have hr2 : r2 ∈ sortReports rs := by
      rw [hl]
      exact List.mem_append.mpr (Or.inr (List.mem_cons_of_mem _ (List.mem_cons_self _ _)))
    exact ⟨l1, r1, r2, l2, hl, (sortReports_perm rs).subset hr1,
      (sortReports_perm rs).subset hr2, hm'⟩
  · exfalso
    have hrs : r ∈ sortReports rs := by
      rw [hl]
      exact List.mem_append.mpr (Or.inr (List.mem_singleton.mpr rfl))
    have hrt : 0 ≤ r.t := h0 r ((sortReports_perm rs).subset hrs)
    rw [hm'] at hlt
    simp only [mkLast] at hlt
    omega

/-- Witness for the amended C3 at a two-report entity. -/
theorem no_synthetic_amended_witness :
    (∀ r ∈ [(⟨"a", 0, 0, 0⟩ : Report), ⟨"a", 10, 0, 10⟩], 0 ≤ r.t) ∧
    (⟨"a", 0, 0, 0, 10, 0, 10⟩ : MPath) ∈ segmentEntity [⟨"a", 0, 0, 0⟩, ⟨"a", 10, 0, 10⟩] ∧
    ∃ l1 r1 r2 l2,
      sortReports [(⟨"a", 0, 0, 0⟩ : Report), ⟨"a", 10, 0, 10⟩] = l1 ++ r1 :: r2 :: l2 ∧
      r1 ∈ [(⟨"a", 0, 0, 0⟩ : Report), ⟨"a", 10, 0, 10⟩] ∧
      r2 ∈ [(⟨"a", 0, 0, 0⟩ : Report), ⟨"a", 10, 0, 10⟩] ∧
      (⟨"a", 0, 0, 0, 10, 0, 10⟩ : MPath) = mkPair r1 r2 :=
  ⟨by decide, by decide,
    no_synthetic_amended [⟨"a", 0, 0, 0⟩, ⟨"a", 10, 0, 10⟩] (by decide)
      ⟨"a", 0, 0, 0, 10, 0, 10⟩ (by decide)⟩

/-- C6 counterexample: gate `(0,0) → (5,0)` and the collinear touching
micropath `(5,0) → (10,0)` meet at the single point `(5,0)` with
`cross = 0`, classified "LR"; the endpoint-swapped micropath also gives
`cross = 0`, classified "LR" again — the reported direction does not
flip. -/
theorem direction_flip_cex :
    swapPath ⟨5, 0, 10, 0⟩ = (⟨10, 0, 5, 0⟩ : SPath) ∧
    func [⟨5, 0, 10, 0⟩] [⟨1, (0, 0), (5, 0)⟩] = [⟨5, 0, 1, "LR"⟩] ∧
    func [⟨10, 0, 5, 0⟩] [⟨1, (0, 0), (5, 0)⟩] = [⟨5, 0, 1, "LR"⟩] := by
  refine ⟨rfl, ?_, ?_⟩
  · rw [func_singleton]
    rw [if_pos (by simp only [segIntersects, paramHit, crossP, dotP]; norm_num)]
    simp only [crossingOf, crossOf, interPoint, crossP, dotP]
    norm_num
  · rw [func_singleton]
    rw [if_pos (by simp only [segIntersects, paramHit, crossP, dotP]; norm_num)]
    simp only [crossingOf, crossOf, interPoint, crossP, dotP]
    norm_num

/-- C6 amended: when `cross = px*gy - py*gx ≠ 0`, swapping the micropath's
endpoints — and likewise reversing the gate's endpoints — yields the same
crossing records with the travel direction flipped ("LR" ↔ "RL").  (At
`cross = 0` both orders classify "LR", so no flip happens there.) -/
theorem direction_flip_amended (m : SPath) (g : GateRec) (h : crossOf m g ≠ 0) :
    func [swapPath m] [g] = (func [m] [g]).map flipCrossing ∧
    func [m] [revGate g] = (func [m] [g]).map flipCrossing := by
  have hD0 : crossP (g.last.1 - g.head.1, g.last.2 - g.head.2)
      (m.x2 - m.x1, m.y2 - m.y1) ≠ 0 := by
    simp only [crossP, crossOf] at h ⊢
    intro hc
    exact h (by linarith)
  have hflip : ∀ x : ℚ, x ≠ 0 →
      (if -x < 0 then "RL" else "LR") = flipDir (if x < 0 then "RL" else "LR") := by
    intro x hx
    rcases lt_or_gt_of_ne hx with hlt | hgt
    · rw [if_pos hlt, if_neg (by linarith : ¬(-x < 0))]
      simp [flipDir]
    · rw [if_neg (by linarith : ¬(x < 0)), if_pos (by linarith : -x < 0)]
      simp [flipDir]
  constructor
  · rw [func_singleton, func_singleton]
    have hseg : segIntersects g.head g.last ((swapPath m).x1, (swapPath m).y1)
        ((swapPath m).x2, (swapPath m).y2) =
        segIntersects g.head g.last (m.x1, m.y1) (m.x2, m.y2) := by
      exact segIntersects_swap_right _ _ _ _
    rw [hseg]
    by_cases hint : segIntersects g.head g.last (m.x1, m.y1) (m.x2, m.y2) = true
    · rw [if_pos hint, if_pos hint]
      simp only [List.map_cons, List.map_nil, List.cons.injEq, and_true]
      have hpoint : interPoint g.head g.last ((swapPath m).x1, (swapPath m).y1)
          ((swapPath m).x2, (swapPath m).y2) =
          interPoint g.head g.last (m.x1, m.y1) (m.x2, m.y2) :=
        interPoint_swap_right hD0
      have hcs : crossOf (swapPath m) g = -crossOf m g := by
        simp only [crossOf, swapPath]
        ring
      simp only [crossingOf, flipCrossing, hpoint, hcs]
      rw [hflip _ h]
    · rw [if_neg hint, if_neg hint]
      simp
  · rw [func_singleton, func_singleton]
    have hseg : segIntersects (revGate g).head (revGate g).last (m.x1, m.y1) (m.x2, m.y2) =
        segIntersects g.head g.last (m.x1, m.y1) (m.x2, m.y2) := by
      exact segIntersects_swap_left _ _ _ _
    rw [hseg]
    by_cases hint : segIntersects g.head g.last (m.x1, m.y1) (m.x2, m.y2) = true
    · rw [if_pos hint, if_pos hint]
      simp only [List.map_cons, List.map_nil, List.cons.injEq, and_true]
      have hpoint : interPoint (revGate g).head (revGate g).last (m.x1, m.y1) (m.x2, m.y2) =
          interPoint g.head g.last (m.x1, m.y1) (m.x2, m.y2) :=
        interPoint_swap_left hD0
      have hcs : crossOf m (revGate g) = -crossOf m g := by
        simp only [crossOf, revGate]
        ring
      simp only [crossingOf, flipCrossing, hpoint, hcs]
      rw [hflip _ h]
      rfl
    · rw [if_neg hint, if_neg hint]
      simp

/-- Witness for the amended C6 at scenario 2 transversal pair. -/
theorem direction_flip_amended_witness :
    crossOf ⟨0, 0, 10, 0⟩ ⟨1, (5, -5), (5, 5)⟩ ≠ 0 ∧
    (func [swapPath ⟨0, 0, 10, 0⟩] [⟨1, (5, -5), (5, 5)⟩] =
        (func [⟨0, 0, 10, 0⟩] [⟨1, (5, -5), (5, 5)⟩]).map flipCrossing ∧
      func [⟨0, 0, 10, 0⟩] [revGate ⟨1, (5, -5), (5, 5)⟩] =
        (func [⟨0, 0, 10, 0⟩] [⟨1, (5, -5), (5, 5)⟩]).map flipCrossing) :=
  ⟨by norm_num [crossOf],
    direction_flip_amended ⟨0, 0, 10, 0⟩ ⟨1, (5, -5), (5, 5)⟩ (by norm_num [crossOf])⟩

lemma segMeets_point {a c d : Pt} : SegMeets a a c d ↔ OnSeg a c d := by
  constructor
  · rintro ⟨p, ⟨s, _, _, hx, hy⟩, hp2⟩
    have hpa : p = a := Prod.ext (by rw [hx]; ring) (by rw [hy]; ring)
    exact hpa ▸ hp2
  · intro hp
    exact ⟨a, ⟨0, le_refl 0, zero_le_one, by ring, by ring⟩, hp⟩

/-- C8 counterexample: the zero-length gate `(5,0)–(5,0)` is not excluded
from detection: the micropath `(0,0) → (10,0)` passes through its point and
a Crossing (direction "LR") is emitted. -/
theorem degenerate_gate_cex :
    func [⟨0, 0, 10, 0⟩] [⟨7, (5, 0), (5, 0)⟩] = [⟨5, 0, 7, "LR"⟩] := by
  rw [func_singleton]
  rw [if_pos (by simp only [segIntersects, paramHit, crossP, dotP]; norm_num)]
  simp only [crossingOf, crossOf, interPoint, crossP, dotP]
  norm_num

/-- C8 amended: a gate with coincident endpoints has the zero direction
vector and is not excluded: it emits a Crossing — necessarily classified
"LR", since `cross = 0` — exactly when its point lies on the micropath, and
no fatal error occurs (`func` is total). -/
theorem degenerate_gate_behavior (m : SPath) (g : GateRec) (hg : g.head = g.last) :
    (g.last.1 - g.head.1, g.last.2 - g.head.2) = ((0 : ℚ), 0) ∧
    (func [m] [g] ≠ [] ↔ OnSeg g.head (m.x1, m.y1) (m.x2, m.y2)) ∧
    ∀ c ∈ func [m] [g], c.travel_dir = "LR" := by
  have hvec : (g.last.1 - g.head.1, g.last.2 - g.head.2) = ((0 : ℚ), 0) := by
    rw [← hg]
    simp
  have hcross : crossOf m g = 0 := by
    simp only [crossOf, ← hg]
    ring
  refine ⟨hvec, ?_, ?_⟩
  · have hiff : (func [m] [g] ≠ []) ↔
        SegMeets g.head g.last (m.x1, m.y1) (m.x2, m.y2) := by
      rw [func_singleton]
      by_cases hint : segIntersects g.head g.last (m.x1, m.y1) (m.x2, m.y2) = true
      · rw [if_pos hint]
        exact iff_of_true (by simp) ((segIntersects_iff_segMeets _ _ _ _).mp hint)
      · rw [if_neg hint]
        exact iff_of_false (by simp)
          fun hme => hint ((segIntersects_iff_segMeets _ _ _ _).mpr hme)
    rw [hiff, ← hg, segMeets_point]
  · intro c hc
    rw [func_singleton] at hc
    by_cases hint : segIntersects g.head g.last (m.x1, m.y1) (m.x2, m.y2) = true
    · rw [if_pos hint] at hc
      rw [List.mem_singleton.mp hc]
      simp [crossingOf, hcross]
    · rw [if_neg hint] at hc
      exact absurd hc (List.not_mem_nil c)

/-- Witness for the amended C8 at the gate point `(5,0)` on the micropath
`(0,0) → (10,0)`. -/
theorem degenerate_gate_behavior_witness :
    (⟨7, (5, 0), (5, 0)⟩ : GateRec).head = (⟨7, (5, 0), (5, 0)⟩ : GateRec).last ∧
    (((⟨7, (5, 0), (5, 0)⟩ : GateRec).last.1 - (⟨7, (5, 0), (5, 0)⟩ : GateRec).head.1,
        (⟨7, (5, 0), (5, 0)⟩ : GateRec).last.2 - (⟨7, (5, 0), (5, 0)⟩ : GateRec).head.2) =
        ((0 : ℚ), 0) ∧
      (func [(⟨0, 0, 10, 0⟩ : SPath)] [⟨7, (5, 0), (5, 0)⟩] ≠ [] ↔
        OnSeg (⟨7, (5, 0), (5, 0)⟩ : GateRec).head
          ((⟨0, 0, 10, 0⟩ : SPath).x1, (⟨0, 0, 10, 0⟩ : SPath).y1)
          ((⟨0, 0, 10, 0⟩ : SPath).x2, (⟨0, 0, 10, 0⟩ : SPath).y2)) ∧
      ∀ c ∈ func [(⟨0, 0, 10, 0⟩ : SPath)] [⟨7, (5, 0), (5, 0)⟩], c.travel_dir = "LR") :=
  ⟨rfl, degenerate_gate_behavior ⟨0, 0, 10, 0⟩ ⟨7, (5, 0), (5, 0)⟩ rfl⟩

lemma sum_indicator_nodup {D : List (ℤ × String)} {a : ℤ × String}
    (hn : D.Nodup) (ha : a ∈ D) :
    (D.map fun k => if a = k then 1 else 0).sum = 1 := by
  induction D with
  | nil => cases ha
  | cons d D ih =>
    rcases List.mem_cons.mp ha with rfl | ha'
    · simp only [List.map_cons, List.sum_cons, if_pos rfl]
      have hz : (D.map fun k => if a = k then 1 else 0).sum = 0 := by
        apply List.sum_eq_zero
        intro n hn'
        obtain ⟨k, hk, rfl⟩ := List.mem_map.mp hn'
        rw [if_neg fun h => (List.nodup_cons.mp hn).1 (by rw [h]; exact hk)]
      simp [hz]
    · have hne : a ≠ d := fun h => (List.nodup_cons.mp hn).1 (h ▸ ha')
      simp only [List.map_cons, List.sum_cons, if_neg hne]
      rw [ih (List.nodup_cons.mp hn).2 ha']

lemma sum_filter_key_dedup (cs : List Crossing) :
    (((cs.map keyOf).dedup).map fun k => (cs.filter fun c => keyOf c = k).length).sum =
      cs.length := by
  induction cs with
  | nil => simp
  | cons c cs ih =>
    have hsplit : ∀ k : ℤ × String,
        (((c :: cs).filter fun x => keyOf x = k).length) =
          ((cs.filter fun x => keyOf x = k).length) + (if keyOf c = k then 1 else 0) := by
      intro k
      rw [List.filter_cons]
      by_cases h : keyOf c = k
      · simp [h]
      · simp [h]
    have hfun : (fun k => (((c :: cs).filter fun x => keyOf x = k).length)) =
        fun k => ((cs.filter fun x => keyOf x = k).length) + (if keyOf c = k then 1 else 0) :=
      funext hsplit
    rw [List.map_cons, hfun]
    rw [List.sum_map_add]
    by_cases hmem : keyOf c ∈ cs.map keyOf
    · rw [List.dedup_cons_of_mem hmem]
      rw [ih]
      rw [sum_indicator_nodup (List.nodup_dedup _) (List.mem_dedup.mpr hmem)]
      simp
    · rw [List.dedup_cons_of_not_mem hmem]
      have hzero : ((cs.filter fun x => keyOf x = keyOf c).length) = 0 := by
        rw [List.length_eq_zero]
        rw [List.filter_eq_nil_iff]
        intro x hx
        simp only [decide_eq_true_eq]
        intro h
        exact hmem (List.mem_map.mpr ⟨x, hx, h⟩)
      have hone : (((keyOf c :: (cs.map keyOf).dedup)).map
          fun k => if keyOf c = k then 1 else 0).sum = 1 := by
        apply sum_indicator_nodup
        · exact List.nodup_cons.mpr ⟨fun h => hmem (List.mem_dedup.mp h), List.nodup_dedup _⟩
        · exact List.mem_cons_self _ _
      rw [hone, List.map_cons, List.sum_cons, hzero, ih]
      simp

/-- C9: the `GateStats` query emits one row per distinct
`(gate_id, travel_dir)` key of its input, each row counting the crossings
with that key, rows sorted by `gate_id` then `travel_dir` ascending, and
the counts sum to the total number of crossing records. -/
theorem aggregation_spec (cs : List Crossing) :
    ((gateStats cs).map fun r => (r.gate_id, r.travel_dir)).Perm (cs.map keyOf).dedup ∧
    ((gateStats cs).map fun r => (r.gate_id, r.travel_dir)).Nodup ∧
    (∀ r ∈ gateStats cs,
      r.cnt = (cs.filter fun c => keyOf c = (r.gate_id, r.travel_dir)).length) ∧
    (gateStats cs).Pairwise
      (fun r r' => keyOrd (r.gate_id, r.travel_dir) (r'.gate_id, r'.travel_dir)) ∧
    ((gateStats cs).map GStat.cnt).sum = cs.length := by
  have hperm0 : (((cs.map keyOf).dedup).insertionSort keyOrd).Perm (cs.map keyOf).dedup :=
    List.perm_insertionSort _ _
  have hmap : (gateStats cs).map (fun r => (r.gate_id, r.travel_dir)) =
      ((cs.map keyOf).dedup).insertionSort keyOrd := by
    simp only [gateStats, List.map_map]
    have : ((fun r : GStat => (r.gate_id, r.travel_dir)) ∘
        fun k : ℤ × String =>
          (⟨k.1, k.2, (cs.filter fun c => keyOf c = k).length⟩ : GStat)) = id :=
      funext fun k => Prod.mk.eta
    rw [this, List.map_id]
  refine ⟨?_, ?_, ?_, ?_, ?_⟩
  · rw [hmap]
    exact hperm0
  · rw [hmap]
    exact hperm0.nodup_iff.mpr (List.nodup_dedup _)
  · intro r hr
    obtain ⟨k, hk, rfl⟩ := List.mem_map.mp hr
    rfl
  · have hsorted : (((cs.map keyOf).dedup).insertionSort keyOrd).Pairwise keyOrd :=
      List.sorted_insertionSort _ _
    exact List.pairwise_map.mpr (hsorted.imp fun h => h)
  · have hcnt : (gateStats cs).map GStat.cnt =
        (((cs.map keyOf).dedup).insertionSort keyOrd).map
          fun k => (cs.filter fun c => keyOf c = k).length := by
      simp [gateStats, List.map_map]
    rw [hcnt, (hperm0.map _).sum_eq, sum_filter_key_dedup]

end SparkEsri
